import Mathlib

/-!
# Shallow embedding of `ftrace-ramoops-fmt` (src/src/main.rs)

The program reads a kallsyms-style symbol listing and a pstore-ftrace call
listing, resolves each call's `to`/`from` address to the symbol with the
greatest address not exceeding it, and prints one line per call.

Modelling conventions:
* `u64`/`u32` values are `Nat`s; `from_str_radix` checks the `< 2^64`
  (resp. `< 2^32`) bound explicitly, as the Rust parser fails on overflow.
* Panics (`panic!`, `.unwrap()`, `.expect(...)`) are `Except.error` carrying
  the panic message; `main`'s per-line printing becomes a list of output
  strings.
* `BTreeMap<u64, Symbol>` is an association list kept strictly sorted by key
  (`btreeInsert`); `collect()` is a fold of inserts, so a later pair with an
  equal key replaces the earlier one, exactly like `BTreeMap`.
* The two regexes are embedded as concrete matchers.  The crate in use is the
  2016-era `regex` 0.1 (the source needs the pre-1.17 nightly features
  `btree_range, collections_bound`), where a standalone `[:alpha:]` is the
  ASCII alphabetic class.  Matching is unanchored and leftmost-first.  In both
  patterns every repeated class is followed by a character class disjoint from
  it (`[0-9a-fA-F]+` then `\s`, `\S+` then `\s` or end of pattern, `\d+` then
  `\s`), so greedy matching is deterministic: each `+` capture is the maximal
  run of its class, and the only backtracking point, `\[(?P<mod>\S+)\]`,
  resolves to the longest run prefix followed by `]`.  The matchers below
  implement exactly that: try a match at each start position from the left,
  and at a position take maximal runs.
* `\s`/`\S`/`\d` are modelled on the ASCII ranges the inputs use.
-/

namespace Ramoops

/-- ASCII whitespace (space, tab, newline, carriage return, vertical tab,
form feed), the `\s` class on the inputs this program sees. -/
def isWsChar (c : Char) : Bool :=
  c.toNat == 32 || c.toNat == 9 || c.toNat == 10 || c.toNat == 13 ||
    c.toNat == 11 || c.toNat == 12

/-- The `[0-9a-fA-F]` class of both address captures. -/
def isHexChar (c : Char) : Bool :=
  (decide (48 ≤ c.toNat) && decide (c.toNat ≤ 57)) ||
    (decide (97 ≤ c.toNat) && decide (c.toNat ≤ 102)) ||
    (decide (65 ≤ c.toNat) && decide (c.toNat ≤ 70))

/-- The `\d` class of the cpu capture: ASCII `0`-`9`. -/
def isDigitChar (c : Char) : Bool :=
  decide (48 ≤ c.toNat) && decide (c.toNat ≤ 57)

/-- The `[:alpha:]` ASCII alphabetic class of the type capture (regex 0.1):
`A`-`Z` or `a`-`z`. -/
def isAlphaChar (c : Char) : Bool :=
  (decide (65 ≤ c.toNat) && decide (c.toNat ≤ 90)) ||
    (decide (97 ≤ c.toNat) && decide (c.toNat ≤ 122))

/-- Numeric value of one digit character, as `from_str_radix` reads it. -/
def digitVal (c : Char) : Nat :=
  if 48 ≤ c.toNat ∧ c.toNat ≤ 57 then c.toNat - 48
  else if 97 ≤ c.toNat ∧ c.toNat ≤ 102 then c.toNat - 87
  else if 65 ≤ c.toNat ∧ c.toNat ≤ 70 then c.toNat - 55
  else 0

/-- Value of a digit string in the given radix (big-endian fold, as
`from_str_radix` accumulates). -/
def digitsVal (radix : Nat) (ds : List Char) : Nat :=
  ds.foldl (fun a c => radix * a + digitVal c) 0

/-- Rust `uN::from_str_radix(ds, radix)` on an already-validated digit capture:
the captures feeding it are nonempty runs of class characters, so the only
failure mode left is overflow past `bound` (`2^64` or `2^32`). -/
def fromStrRadix (radix bound : Nat) (ds : List Char) : Option Nat :=
  if ds ≠ [] ∧ digitsVal radix ds < bound then some (digitsVal radix ds) else none

/-- Lowercase hex digit characters, as `Display` for `{:x}` produces. -/
def hexDigitChar (n : Nat) : Char :=
  if n < 10 then Char.ofNat (48 + n) else Char.ofNat (87 + n)

/-- Digits of `n` in base 16, most significant first, empty for `0`.
Structural recursion on a fuel argument that starts at `n` (enough, since
`n / 16 < n` for `n ≥ 1`). -/
def hexDigitsAux : Nat → Nat → List Char
  | _, 0 => []
  | 0, _ + 1 => []
  | f + 1, n + 1 => hexDigitsAux f ((n + 1) / 16) ++ [hexDigitChar ((n + 1) % 16)]

/-- Rust's `{:x}` formatting of a `u64`: lowercase hex, no leading zeros. -/
def hexStr (n : Nat) : String := if n = 0 then "0" else String.mk (hexDigitsAux n n)

/-- The `struct Symbol { name: String, module: Option<String> }` (main.rs:12). -/
structure Symbol where
  name : String
  module : Option String
deriving DecidableEq

/-- The `impl Display for Symbol` (main.rs:17): `name[module]` when a module is
present, bare `name` otherwise. -/
def Symbol.fmtStr (s : Symbol) : String :=
  match s.module with
  | some m => s.name ++ "[" ++ m ++ "]"
  | none => s.name

/-- The alias `type Syms = BTreeMap<u64, Symbol>` (main.rs:52), as a key-sorted
association list. -/
abbrev Syms := List (Nat × Symbol)

/-- Rust `BTreeMap::insert`: place `(k, v)` at its sorted position, replacing an
existing entry with the same key. -/
def btreeInsert : List (Nat × Symbol) → Nat → Symbol → List (Nat × Symbol)
  | [], k, v => [(k, v)]
  | (k', v') :: t, k, v =>
    if k < k' then (k, v) :: (k', v') :: t
    else if k = k' then (k, v) :: t
    else (k', v') :: btreeInsert t k v

/-- Rust `BTreeMap::get`: the value stored at key `k`, if any. -/
def mapLookup (m : Syms) (k : Nat) : Option Symbol :=
  (List.find? (fun p => p.1 == k) m).map Prod.snd

/-- The `struct SymOffset` (main.rs:54): resolved symbol plus the queried
address's offset from the symbol's own address. -/
structure SymOffset where
  addr : Nat
  offset : Nat
  sym : Symbol
deriving DecidableEq

/-- The `impl Display for SymOffset` (main.rs:60): append `+0x<offset in hex>`
exactly when the offset is positive. -/
def SymOffset.fmtStr (r : SymOffset) : String :=
  if r.offset > 0 then r.sym.fmtStr ++ "+0x" ++ hexStr r.offset else r.sym.fmtStr

/-- The resolver `find_sym` (main.rs:70): `syms.range(Unbounded, Included(needle))
.next_back()` is the last entry, in key order, among those with key ≤ needle;
on the sorted association list that is `getLast?` of the filtered list.  The
offset is `needle - addr` (u64 subtraction; safe iff `addr ≤ needle`). -/
def findSym (needle : Nat) (syms : Syms) : Option SymOffset :=
  (List.getLast? (List.filter (fun p => decide (p.1 ≤ needle)) syms)).map
    (fun p => { addr := p.1, offset := needle - p.1, sym := p.2 })

/-! ## The kallsyms line matcher

Regex (main.rs:28, `(?x)` mode):
`(?P<addr>[0-9a-fA-F]+)\s(?P<type>[:alpha:])\s(?P<name>\S+)(?:\s+\[(?P<mod>\S+)\])?`
-/

/-- The four captures of the kallsyms regex. -/
structure KCaps where
  addr : List Char
  ty : Char
  name : List Char
  md : Option (List Char)
deriving DecidableEq

/-- Greedy `(?P<mod>\S+)\]` inside a run of non-whitespace characters: the
longest prefix of the run that is followed by `]`, i.e. everything before the
run's last `]`.  `none` when the run has no `]` past position 0. -/
def splitAtLastClose : List Char → Option (List Char)
  | [] => none
  | c :: t =>
    match splitAtLastClose t with
    | some p => some (c :: p)
    | none => if c == ']' then some [] else none

/-- The optional `(?:\s+\[(?P<mod>\S+)\])?` group, applied to the text after
the name capture.  Greedy: taken whenever `\s+` then `[` then a nonempty
`\S+` prefix followed by `]` match here; otherwise skipped. -/
def modCapture (cs : List Char) : Option (List Char) :=
  let ws := cs.takeWhile isWsChar
  match cs.dropWhile isWsChar with
  | '[' :: rest =>
    if ws.isEmpty then none
    else
      match splitAtLastClose (rest.takeWhile (fun c => !isWsChar c)) with
      | some p => if p.isEmpty then none else some p
      | none => none
  | _ => none

/-- Match the kallsyms pattern at the start of `cs` (all runs maximal, see
the header comment on determinism). -/
def kallsymsMatchAt (cs : List Char) : Option KCaps :=
  let addr := cs.takeWhile isHexChar
  if addr.isEmpty then none
  else
    match cs.dropWhile isHexChar with
    | c1 :: ty :: c2 :: r4 =>
      if isWsChar c1 && isAlphaChar ty && isWsChar c2 then
        let name := r4.takeWhile (fun c => !isWsChar c)
        if name.isEmpty then none
        else some { addr := addr, ty := ty, name := name,
                    md := modCapture (r4.dropWhile (fun c => !isWsChar c)) }
      else none
    | _ => none

/-- Rust `Regex::captures` for the kallsyms pattern: leftmost match, trying each
start position from the left. -/
def kallsymsCaptures : List Char → Option KCaps
  | [] => none
  | c :: t =>
    match kallsymsMatchAt (c :: t) with
    | some caps => some caps
    | none => kallsymsCaptures t

/-- One iteration of the `kallsyms` closure (main.rs:35-48): match the line,
parse the address as base-16 `u64`, build the `Symbol`; panic messages on a
failed match or a failed parse. -/
def kallsymsLine (line : String) : Except String (Nat × Symbol) :=
  match kallsymsCaptures line.data with
  | none => .error ("Symbol line not matched: " ++ line)
  | some caps =>
    match fromStrRadix 16 (2 ^ 64) caps.addr with
    | none => .error "Failed to parse address"
    | some addr =>
      .ok (addr, { name := String.mk caps.name, module := caps.md.map String.mk })

/-- The builder `kallsyms` (main.rs:27): map the closure over the lines and `collect()`
into the `BTreeMap`; the first panicking line aborts. -/
def kallsymsAux (m : Syms) : List String → Except String Syms
  | [] => .ok m
  | l :: t =>
    match kallsymsLine l with
    | .error e => .error e
    | .ok (a, s) => kallsymsAux (btreeInsert m a s) t

/-- The whole `kallsyms` pass starting from the empty map. -/
def kallsyms (lines : List String) : Except String Syms := kallsymsAux [] lines

/-! ## The ftrace line matcher

Regex (main.rs:92, `(?x)` mode):
`(?P<cpu>\d+)\s+(?P<to>[0-9a-fA-F]+)\s+(?P<from>[0-9a-fA-F]+)\s+`
-/

/-- The three captures of the ftrace pattern. -/
structure FCaps where
  cpu : List Char
  toA : List Char
  fromA : List Char
deriving DecidableEq

/-- Match the ftrace pattern at the start of `cs`: maximal digit run, ws run,
hex run, ws run, hex run, then at least one more whitespace character
(the trailing `\s+` of the pattern). -/
def ftraceMatchAt (cs : List Char) : Option FCaps :=
  let cpu := cs.takeWhile isDigitChar
  if cpu.isEmpty then none
  else
    let r1 := cs.dropWhile isDigitChar
    if (r1.takeWhile isWsChar).isEmpty then none
    else
      let r2 := r1.dropWhile isWsChar
      let toA := r2.takeWhile isHexChar
      if toA.isEmpty then none
      else
        let r3 := r2.dropWhile isHexChar
        if (r3.takeWhile isWsChar).isEmpty then none
        else
          let r4 := r3.dropWhile isWsChar
          let fromA := r4.takeWhile isHexChar
          if fromA.isEmpty then none
          else
            match r4.dropWhile isHexChar with
            | c :: _ => if isWsChar c then some { cpu := cpu, toA := toA, fromA := fromA } else none
            | [] => none

/-- Rust `Regex::captures` for the ftrace pattern: leftmost match. -/
def ftraceCaptures : List Char → Option FCaps
  | [] => none
  | c :: t =>
    match ftraceMatchAt (c :: t) with
    | some caps => some caps
    | none => ftraceCaptures t

/-- The `struct FnCall` (main.rs:85). -/
structure FnCall where
  cpu : Nat
  srcFrom : Nat
  dstTo : Nat
deriving DecidableEq

/-- One iteration of the `ftrace` closure (main.rs:98-112): match the line,
then parse cpu (base 10, `u32`), then `from`, then `to` (base 16, `u64`), in
that order, each with its own panic message. -/
def ftraceLine (line : String) : Except String FnCall :=
  match ftraceCaptures line.data with
  | none => .error "Failed to match ftrace line"
  | some caps =>
    match fromStrRadix 10 (2 ^ 32) caps.cpu with
    | none => .error "Failed to parse CPU"
    | some cpu =>
      match fromStrRadix 16 (2 ^ 64) caps.fromA with
      | none => .error "Failed to parse address"
      | some fr =>
        match fromStrRadix 16 (2 ^ 64) caps.toA with
        | none => .error "Failed to parse address"
        | some t => .ok { cpu := cpu, srcFrom := fr, dstTo := t }

/-- The parser `ftrace` (main.rs:91): one `FnCall` per line, in line order, first
panicking line aborts. -/
def ftrace : List String → Except String (List FnCall)
  | [] => .ok []
  | l :: t =>
    match ftraceLine l with
    | .error e => .error e
    | .ok c => (ftrace t).map (fun cs => c :: cs)

/-! ## The main loop (main.rs:133-145) -/

/-- One iteration of the search loop (main.rs:140-144): unwrap
`find_sym(call.from)`, then `find_sym(call.to)`, then print
`"{} {} <- {}"` with `call.cpu`, `to.sym` (the bare symbol!) and `from`
(the `SymOffset`). -/
def processCall (syms : Syms) (call : FnCall) : Except String String :=
  match findSym call.srcFrom syms with
  | none => .error "called `Option::unwrap()` on a `None` value"
  | some fr =>
    match findSym call.dstTo syms with
    | none => .error "called `Option::unwrap()` on a `None` value"
    | some t =>
      .ok (Nat.repr call.cpu ++ " " ++ t.sym.fmtStr ++ " <- " ++ fr.fmtStr)

/-- The loop over all calls, collecting the printed lines in order. -/
def processCalls (syms : Syms) : List FnCall → Except String (List String)
  | [] => .ok []
  | c :: t =>
    match processCall syms c with
    | .error e => .error e
    | .ok line => (processCalls syms t).map (fun ls => line :: ls)

/-- The `main` function (main.rs:133): read the trace file first, then kallsyms, then run
the search loop; the printed lines are the output. -/
def mainOutput (symLines traceLines : List String) : Except String (List String) :=
  match ftrace traceLines with
  | .error e => .error e
  | .ok calls =>
    match kallsyms symLines with
    | .error e => .error e
    | .ok syms => processCalls syms calls

/-! ## Derived definitions used by the verification -/

/-- The characters `{:x}` can emit. -/
def lowerHexChars : List Char := "0123456789abcdef".data

/-- The `BTreeMap` representation invariant: keys strictly increase. -/
def SortedKeys (m : Syms) : Prop := List.Pairwise (fun p q => p.1 < q.1) m

instance (m : Syms) : Decidable (SortedKeys m) :=
  inferInstanceAs (Decidable (List.Pairwise _ m))

/-- Demonstration table `{100 ↦ alpha, 200 ↦ beta}` for concrete instances. -/
def alphaSym : Symbol := { name := "alpha", module := none }

/-- The second demonstration symbol. -/
def betaSym : Symbol := { name := "beta", module := none }

/-- The demonstration table of the spec's end-to-end example. -/
def demoSyms : Syms := [(100, alphaSym), (200, betaSym)]

/-- The symbol stored by the last line whose parsed address is `a`, among the
lines that parse at all: the "last write" of the input listing at `a`. -/
def lastParsedAt (lines : List String) (a : Nat) : Option Symbol :=
  ((lines.filterMap (fun l => (kallsymsLine l).toOption)).filter
    (fun p => p.1 == a)).getLast?.map Prod.snd

/-! ## Generic list helpers -/

theorem mem_of_getLast?_eq {α : Type} : ∀ {l : List α} {a : α}, l.getLast? = some a → a ∈ l
  | [], _, h => by simp at h
  | [x], a, h => by
    have hx : x = a := by simpa using h
    simp [hx]
  | x :: y :: t, a, h => by
    rw [List.getLast?_cons_cons] at h
    exact List.mem_cons_of_mem x (mem_of_getLast?_eq h)

theorem getLast?_cons_ne_nil {α : Type} (x : α) {t : List α} (h : t ≠ []) :
    (x :: t).getLast? = t.getLast? := by
  cases t with
  | nil => exact absurd rfl h
  | cons y u => exact List.getLast?_cons_cons

theorem head?_append_ne_nil {α : Type} {l : List α} (r : List α) (h : l ≠ []) :
    (l ++ r).head? = l.head? := by
  cases l with
  | nil => exact absurd rfl h
  | cons a t => rfl

theorem takeWhile_append_cons {α : Type} (p : α → Bool) {l : List α}
    (hl : ∀ c ∈ l, p c = true) {x : α} (hx : p x = false) (r : List α) :
    (l ++ x :: r).takeWhile p = l := by
  induction l with
  | nil => simp [List.takeWhile, hx]
  | cons c t ih =>
    have hc : p c = true := hl c (by simp)
    simp only [List.cons_append, List.takeWhile, hc, List.append_eq]
    rw [ih (fun d hd => hl d (by simp [hd]))]

theorem dropWhile_append_cons {α : Type} (p : α → Bool) {l : List α}
    (hl : ∀ c ∈ l, p c = true) {x : α} (hx : p x = false) (r : List α) :
    (l ++ x :: r).dropWhile p = x :: r := by
  induction l with
  | nil => simp [List.dropWhile, hx]
  | cons c t ih =>
    have hc : p c = true := hl c (by simp)
    simp only [List.cons_append, List.dropWhile, hc, List.append_eq]
    exact ih (fun d hd => hl d (by simp [hd]))

/-! ## Facts about the hex rendering -/

theorem hexDigitChar_mem {k : Nat} (hk : k < 16) : hexDigitChar k ∈ lowerHexChars := by
  interval_cases k <;> decide

theorem hexDigitChar_ne_zero {k : Nat} (h0 : 0 < k) (hk : k < 16) : hexDigitChar k ≠ '0' := by
  interval_cases k <;> decide

theorem hexDigitsAux_spec : ∀ f n : Nat, n ≤ f → 0 < n →
    hexDigitsAux f n ≠ [] ∧ (hexDigitsAux f n).head? ≠ some '0' ∧
      ∀ c ∈ hexDigitsAux f n, c ∈ lowerHexChars := by
  intro f
  induction f with
  | zero => intro n h1 h2; omega
  | succ f ih =>
    intro n h1 h2
    match n, h2 with
    | m + 1, _ =>
      have heq : hexDigitsAux (f + 1) (m + 1) =
          hexDigitsAux f ((m + 1) / 16) ++ [hexDigitChar ((m + 1) % 16)] := rfl
      have hmod : (m + 1) % 16 < 16 := Nat.mod_lt _ (by norm_num)
      by_cases hq : (m + 1) / 16 = 0
      · have hlt : m + 1 < 16 := by omega
        have hm0 : (m + 1) % 16 = m + 1 := Nat.mod_eq_of_lt hlt
        rw [heq, hq]
        refine ⟨by simp, ?_, ?_⟩
        · show ((hexDigitsAux f 0 ++ [hexDigitChar ((m + 1) % 16)]).head? ≠ some '0')
          have : hexDigitsAux f 0 = [] := by cases f <;> rfl
          rw [this]
          simp only [List.nil_append, List.head?_cons]
          intro hcontra
          exact hexDigitChar_ne_zero (by omega) hmod (by injection hcontra)
        · intro c hc
          have : hexDigitsAux f 0 = [] := by cases f <;> rfl
          rw [this] at hc
          simp at hc
          rw [hc]
          exact hexDigitChar_mem hmod
      · have hdle : (m + 1) / 16 ≤ f := by
          have := Nat.div_lt_self (Nat.succ_pos m) (by norm_num : 1 < 16)
          omega
        obtain ⟨h1', h2', h3'⟩ := ih ((m + 1) / 16) hdle (Nat.pos_of_ne_zero hq)
        rw [heq]
        refine ⟨by simp, ?_, ?_⟩
        · rw [head?_append_ne_nil _ h1']
          exact h2'
        · intro c hc
          rcases List.mem_append.1 hc with h | h
          · exact h3' c h
          · simp at h
            rw [h]
            exact hexDigitChar_mem hmod

theorem hexStr_spec {n : Nat} (h : 0 < n) :
    (hexStr n).data ≠ [] ∧ (hexStr n).data.head? ≠ some '0' ∧
      ∀ c ∈ (hexStr n).data, c ∈ lowerHexChars := by
  rw [hexStr, if_neg (by omega)]
  exact hexDigitsAux_spec n n le_rfl h

/-! ## The sorted-key invariant and floor-search lemmas -/

theorem sorted_getLast?_max {l : List (Nat × Symbol)} :
    List.Pairwise (fun p q => p.1 < q.1) l → ∀ {p : Nat × Symbol},
      l.getLast? = some p → ∀ q ∈ l, q.1 ≤ p.1 := by
  induction l with
  | nil => intro _ p h; simp at h
  | cons x t ih =>
    intro hs p h q hq
    rw [List.pairwise_cons] at hs
    cases t with
    | nil =>
      have hx : x = p := by simpa using h
      have hq' : q = x := by simpa using hq
      rw [hq', hx]
    | cons y u =>
      rw [List.getLast?_cons_cons] at h
      have hp : p ∈ y :: u := mem_of_getLast?_eq h
      rcases List.mem_cons.1 hq with he | hq'
      · rw [he]
        exact le_of_lt (hs.1 p hp)
      · exact ih hs.2 h q hq'

theorem floor_filter_self {syms : Syms} :
    SortedKeys syms → ∀ {a : Nat} {s : Symbol}, (a, s) ∈ syms →
      (syms.filter (fun p => decide (p.1 ≤ a))).getLast? = some (a, s) := by
  induction syms with
  | nil => intro _ a s hm; simp at hm
  | cons x t ih =>
    intro hs a s hm
    rw [SortedKeys, List.pairwise_cons] at hs
    rcases List.mem_cons.1 hm with he | hm'
    · have hft : t.filter (fun p => decide (p.1 ≤ a)) = [] := by
        rw [List.filter_eq_nil_iff]
        intro q hq
        have := hs.1 q hq
        rw [← he] at this
        simp only [decide_eq_true_eq]
        omega
      rw [← he, List.filter_cons_of_pos (by simp), hft]
      rfl
    · have hlast := ih hs.2 hm'
      have hxa : x.1 ≤ a := by
        have hq : (a, s) ∈ t := hm'
        have := hs.1 (a, s) hq
        exact le_of_lt this
      rw [List.filter_cons_of_pos (by simpa using hxa)]
      have hne : t.filter (fun p => decide (p.1 ≤ a)) ≠ [] := by
        intro hnil
        rw [hnil] at hlast
        simp at hlast
      rw [getLast?_cons_ne_nil x hne]
      exact hlast

theorem floor_filter_between {pre post : List (Nat × Symbol)} {A B addr : Nat}
    {sa sb : Symbol} (hs : SortedKeys (pre ++ (A, sa) :: (B, sb) :: post))
    (h1 : A ≤ addr) (h2 : addr < B) :
    ((pre ++ (A, sa) :: (B, sb) :: post).filter
      (fun p => decide (p.1 ≤ addr))).getLast? = some (A, sa) := by
  rw [SortedKeys, List.pairwise_append] at hs
  obtain ⟨hpre, hright, hcross⟩ := hs
  rw [List.pairwise_cons] at hright
  obtain ⟨hA, hright'⟩ := hright
  rw [List.pairwise_cons] at hright'
  obtain ⟨hB, _⟩ := hright'
  have hfpre : pre.filter (fun p => decide (p.1 ≤ addr)) = pre := by
    rw [List.filter_eq_self]
    intro q hq
    have := hcross q hq (A, sa) (by simp)
    simp only [decide_eq_true_eq]
    omega
  have hfpost : post.filter (fun p => decide (p.1 ≤ addr)) = [] := by
    rw [List.filter_eq_nil_iff]
    intro q hq
    have := hB q hq
    simp only [decide_eq_true_eq]
    omega
  rw [List.filter_append, hfpre, List.filter_cons_of_pos (by simpa using h1),
    List.filter_cons_of_neg (by simp; omega), hfpost]
  exact List.getLast?_concat pre

/-- C2: on a table whose keys are strictly sorted (the `BTreeMap` invariant),
`find_sym` returns the entry with the largest key ≤ the query address: a query
equal to a stored address yields that symbol with offset 0; a query strictly
between two consecutive stored addresses A < addr < B yields A's symbol with
offset addr - A; whatever is returned is a table entry with the greatest
key ≤ the query, and a result exists whenever some key is ≤ the query. -/
theorem find_sym_floor (syms : Syms) (hs : SortedKeys syms) (addr : Nat) :
    (∀ s : Symbol, (addr, s) ∈ syms →
      findSym addr syms = some { addr := addr, offset := 0, sym := s }) ∧
    (∀ pre post A B sa sb, syms = pre ++ (A, sa) :: (B, sb) :: post →
      A < addr → addr < B →
      findSym addr syms = some { addr := A, offset := addr - A, sym := sa }) ∧
    (∀ r, findSym addr syms = some r →
      (r.addr, r.sym) ∈ syms ∧ r.addr ≤ addr ∧
        ∀ q ∈ syms, q.1 ≤ addr → q.1 ≤ r.addr) ∧
    ((∃ q ∈ syms, q.1 ≤ addr) → ∃ r, findSym addr syms = some r) := by
  refine ⟨?_, ?_, ?_, ?_⟩
  · intro s hm
    rw [findSym, floor_filter_self hs hm]
    simp
  · intro pre post A B sa sb hsyms hA hB
    subst hsyms
    rw [findSym, floor_filter_between hs (le_of_lt hA) hB]
    rfl
  · intro r hr
    rw [findSym] at hr
    obtain ⟨p, hp, hfp⟩ := Option.map_eq_some'.1 hr
    have hpmem := List.mem_filter.1 (mem_of_getLast?_eq hp)
    have hple : p.1 ≤ addr := by simpa using hpmem.2
    have hra : r.addr = p.1 := by rw [← hfp]
    have hrs : r.sym = p.2 := by rw [← hfp]
    refine ⟨?_, ?_, ?_⟩
    · rw [hra, hrs]
      exact hpmem.1
    · rw [hra]
      exact hple
    · intro q hq hqle
      have hqf : q ∈ syms.filter (fun p => decide (p.1 ≤ addr)) :=
        List.mem_filter.2 ⟨hq, by simpa using hqle⟩
      have hmax := sorted_getLast?_max (hs.sublist (List.filter_sublist syms)) hp q hqf
      rw [hra]
      exact hmax
  · intro ⟨q, hq, hqle⟩
    have hqf : q ∈ syms.filter (fun p => decide (p.1 ≤ addr)) :=
      List.mem_filter.2 ⟨hq, by simpa using hqle⟩
    cases hgl : (syms.filter (fun p => decide (p.1 ≤ addr))).getLast? with
    | none =>
      rw [List.getLast?_eq_none_iff] at hgl
      exact absurd hgl (List.ne_nil_of_mem hqf)
    | some p =>
      exact ⟨{ addr := p.1, offset := addr - p.1, sym := p.2 }, by rw [findSym, hgl]; rfl⟩

/-- Witness for C2 at the demonstration table: query 100 hits `alpha` exactly
(offset 0) and query 150 falls between 100 and 200, yielding `alpha+0x32`. -/
theorem find_sym_floor_witness :
    findSym 100 demoSyms = some { addr := 100, offset := 0, sym := alphaSym } ∧
    findSym 150 demoSyms = some { addr := 100, offset := 50, sym := alphaSym } :=
  ⟨(find_sym_floor demoSyms (by decide) 100).1 alphaSym (by decide),
   (find_sym_floor demoSyms (by decide) 150).2.1 [] [] 100 200 alphaSym betaSym
     rfl (by decide) (by decide)⟩

/-- C3: a query below every stored key — in particular any query against the
empty table — resolves to `none` rather than an error. -/
theorem find_sym_not_found (syms : Syms) (addr : Nat) :
    findSym addr ([] : Syms) = none ∧
      ((∀ q ∈ syms, addr < q.1) → findSym addr syms = none) := by
  refine ⟨rfl, ?_⟩
  intro h
  rw [findSym, List.filter_eq_nil_iff.2 (fun q hq => by have := h q hq; simp; omega)]
  rfl

/-- Witness for C3: address 5 is below the only symbol at 100. -/
theorem find_sym_not_found_witness :
    findSym 5 ([] : Syms) = none ∧ findSym 5 [(100, alphaSym)] = none :=
  ⟨(find_sym_not_found [(100, alphaSym)] 5).1,
   (find_sym_not_found [(100, alphaSym)] 5).2 (by decide)⟩

/-- C4: whenever `find_sym` returns a result, the matched key is ≤ the query,
so the `needle - addr` subtraction (main.rs:82) cannot underflow: the stored
offset plus the matched key reconstructs the query exactly. -/
theorem find_sym_no_underflow (syms : Syms) (needle : Nat) (r : SymOffset)
    (h : findSym needle syms = some r) :
    r.addr ≤ needle ∧ r.offset = needle - r.addr ∧ r.addr + r.offset = needle := by
  rw [findSym] at h
  obtain ⟨p, hp, hfp⟩ := Option.map_eq_some'.1 h
  have hple : p.1 ≤ needle := by
    have := (List.mem_filter.1 (mem_of_getLast?_eq hp)).2
    simpa using this
  have hra : r.addr = p.1 := by rw [← hfp]
  have hro : r.offset = needle - p.1 := by rw [← hfp]
  refine ⟨by omega, by omega, by omega⟩

/-- Witness for C4 at the demonstration table, query 150. -/
theorem find_sym_no_underflow_witness :
    (100 : Nat) ≤ 150 ∧ (50 : Nat) = 150 - 100 ∧ (100 : Nat) + 50 = 150 :=
  find_sym_no_underflow demoSyms 150
    { addr := 100, offset := 50, sym := alphaSym } (by decide)

/-! ## `BTreeMap` insert/lookup lemmas -/

theorem mem_btreeInsert : ∀ {m : List (Nat × Symbol)} {k : Nat} {v : Symbol}
    {q : Nat × Symbol}, q ∈ btreeInsert m k v → q.1 = k ∨ q ∈ m := by
  intro m
  induction m with
  | nil =>
    intro k v q hq
    simp [btreeInsert] at hq
    left
    rw [hq]
  | cons x t ih =>
    intro k v q hq
    obtain ⟨k', v'⟩ := x
    rw [btreeInsert] at hq
    by_cases h1 : k < k'
    · rw [if_pos h1] at hq
      rcases List.mem_cons.1 hq with he | hm
      · left; rw [he]
      · right; exact hm
    · rw [if_neg h1] at hq
      by_cases h2 : k = k'
      · rw [if_pos h2] at hq
        rcases List.mem_cons.1 hq with he | hm
        · left; rw [he]
        · right; exact List.mem_cons_of_mem _ hm
      · rw [if_neg h2] at hq
        rcases List.mem_cons.1 hq with he | hm
        · right; rw [he]; exact List.mem_cons_self _ _
        · rcases ih hm with h | h
          · left; exact h
          · right; exact List.mem_cons_of_mem _ h

theorem sortedKeys_btreeInsert : ∀ {m : Syms}, SortedKeys m → ∀ (k : Nat) (v : Symbol),
    SortedKeys (btreeInsert m k v) := by
  intro m
  induction m with
  | nil =>
    intro _ k v
    simp [btreeInsert, SortedKeys]
  | cons x t ih =>
    intro hs k v
    obtain ⟨k', v'⟩ := x
    rw [SortedKeys, List.pairwise_cons] at hs
    obtain ⟨hd, ht⟩ := hs
    rw [SortedKeys, btreeInsert]
    by_cases h1 : k < k'
    · rw [if_pos h1, List.pairwise_cons]
      refine ⟨?_, List.pairwise_cons.2 ⟨hd, ht⟩⟩
      intro q hq
      rcases List.mem_cons.1 hq with he | hm
      · rw [he]; exact h1
      · exact lt_trans h1 (hd q hm)
    · rw [if_neg h1]
      by_cases h2 : k = k'
      · rw [if_pos h2, List.pairwise_cons]
        exact ⟨fun q hq => h2 ▸ hd q hq, ht⟩
      · rw [if_neg h2, List.pairwise_cons]
        refine ⟨?_, ih ht k v⟩
        intro q hq
        rcases mem_btreeInsert hq with he | hm
        · rw [he]; omega
        · exact hd q hm

theorem mapLookup_btreeInsert_self : ∀ (m : Syms) (k : Nat) (v : Symbol),
    mapLookup (btreeInsert m k v) k = some v := by
  intro m
  induction m with
  | nil => intro k v; simp [btreeInsert, mapLookup, List.find?]
  | cons x t ih =>
    intro k v
    obtain ⟨k', v'⟩ := x
    rw [btreeInsert]
    by_cases h1 : k < k'
    · rw [if_pos h1]
      simp [mapLookup, List.find?_cons]
    · rw [if_neg h1]
      by_cases h2 : k = k'
      · rw [if_pos h2]
        simp [mapLookup, List.find?_cons]
      · rw [if_neg h2]
        have hkk : (k' == k) = false := by
          simp
          omega
        simp only [mapLookup, List.find?_cons, hkk]
        exact ih k v

theorem mapLookup_btreeInsert_ne : ∀ (m : Syms) (k : Nat) (v : Symbol) {a : Nat},
    a ≠ k → mapLookup (btreeInsert m k v) a = mapLookup m a := by
  intro m
  induction m with
  | nil =>
    intro k v a h
    have hka : (k == a) = false := by
      simp
      omega
    simp [btreeInsert, mapLookup, List.find?, hka]
  | cons x t ih =>
    intro k v a h
    obtain ⟨k', v'⟩ := x
    have hka : (k == a) = false := by
      simp
      omega
    rw [btreeInsert]
    by_cases h1 : k < k'
    · rw [if_pos h1]
      simp only [mapLookup, List.find?_cons, hka]
    · rw [if_neg h1]
      by_cases h2 : k = k'
      · have hk'a : (k' == a) = false := by
          simp
          omega
        rw [if_pos h2]
        simp only [mapLookup, List.find?_cons, hka, hk'a]
      · rw [if_neg h2]
        cases hc : (k' == a) with
        | true => simp only [mapLookup, List.find?_cons, hc]
        | false =>
          simp only [mapLookup, List.find?_cons, hc]
          exact ih k v h

theorem lastParsedAt_cons {l : String} {t : List String} {k : Nat} {v : Symbol}
    (hl : kallsymsLine l = .ok (k, v)) (a : Nat) :
    lastParsedAt (l :: t) a =
      match lastParsedAt t a with
      | some w => some w
      | none => if k == a then some v else none := by
  rw [lastParsedAt, lastParsedAt, List.filterMap_cons, hl]
  show (((k, v) :: List.filterMap (fun l => (kallsymsLine l).toOption) t).filter
      (fun p => p.1 == a)).getLast?.map Prod.snd = _
  generalize List.filterMap (fun l => (kallsymsLine l).toOption) t = L
  cases hk : (k == a) with
  | true =>
    have hka : k = a := by simpa using hk
    subst hka
    simp only [List.filter_cons, beq_self_eq_true, if_true]
    cases hfl : L.filter (fun p => p.1 == k) with
    | nil => simp
    | cons y u =>
      rw [List.getLast?_cons_cons]
      cases hgl : (y :: u).getLast? with
      | none =>
        rw [List.getLast?_eq_none_iff] at hgl
        simp at hgl
      | some w => rfl
  | false =>
    simp only [List.filter_cons, hk, Bool.false_eq_true, if_false]
    cases hgl : (L.filter (fun p => p.1 == a)).getLast? with
    | none => rfl
    | some w => rfl

theorem kallsymsAux_lookup : ∀ (lines : List String) (m m' : Syms),
    kallsymsAux m lines = .ok m' → ∀ a : Nat,
      mapLookup m' a =
        match lastParsedAt lines a with
        | some w => some w
        | none => mapLookup m a := by
  intro lines
  induction lines with
  | nil =>
    intro m m' h a
    simp only [kallsymsAux] at h
    cases h
    rfl
  | cons l t ih =>
    intro m m' h a
    cases hl : kallsymsLine l with
    | error e => simp [kallsymsAux, hl] at h
    | ok p =>
      obtain ⟨k, v⟩ := p
      simp only [kallsymsAux, hl] at h
      have hrec := ih (btreeInsert m k v) m' h a
      rw [hrec, lastParsedAt_cons hl a]
      cases hlp : lastParsedAt t a with
      | some w => rfl
      | none =>
        cases hk : (k == a) with
        | true =>
          have hka : k = a := by simpa using hk
          subst hka
          simp [mapLookup_btreeInsert_self]
        | false =>
          have hka : a ≠ k := by
            have : ¬ k = a := by simpa using hk
            omega
          simp [hk, mapLookup_btreeInsert_ne m k v hka]

theorem kallsymsAux_sorted : ∀ (lines : List String) (m m' : Syms),
    SortedKeys m → kallsymsAux m lines = .ok m' → SortedKeys m' := by
  intro lines
  induction lines with
  | nil =>
    intro m m' hs h
    simp only [kallsymsAux] at h
    cases h
    exact hs
  | cons l t ih =>
    intro m m' hs h
    cases hl : kallsymsLine l with
    | error e => simp [kallsymsAux, hl] at h
    | ok p =>
      obtain ⟨k, v⟩ := p
      simp only [kallsymsAux, hl] at h
      exact ih _ _ (sortedKeys_btreeInsert hs k v) h

theorem kallsymsAux_error : ∀ (lines : List String) (l : String), l ∈ lines →
    (∃ e, kallsymsLine l = .error e) → ∀ m, ∃ e', kallsymsAux m lines = .error e' := by
  intro lines
  induction lines with
  | nil => intro l hl; simp at hl
  | cons x t ih =>
    intro l hl he m
    rcases List.mem_cons.1 hl with hx | hm
    · obtain ⟨e, he⟩ := he
      rw [hx] at *
      exact ⟨e, by simp [kallsymsAux, he]⟩
    · cases hx : kallsymsLine x with
      | error e => exact ⟨e, by simp [kallsymsAux, hx]⟩
      | ok p =>
        obtain ⟨k, v⟩ := p
        obtain ⟨e', he'⟩ := ih l hm he (btreeInsert m k v)
        exact ⟨e', by simp [kallsymsAux, hx]; exact he'⟩

theorem ftrace_error : ∀ (lines : List String) (l : String), l ∈ lines →
    (∃ e, ftraceLine l = .error e) → ∃ e', ftrace lines = .error e' := by
  intro lines
  induction lines with
  | nil => intro l hl; simp at hl
  | cons x t ih =>
    intro l hl he
    rcases List.mem_cons.1 hl with hx | hm
    · obtain ⟨e, he⟩ := he
      rw [hx] at *
      exact ⟨e, by simp [ftrace, he]⟩
    · cases hx : ftraceLine x with
      | error e => exact ⟨e, by simp [ftrace, hx]⟩
      | ok c =>
        obtain ⟨e', he'⟩ := ih l hm he
        exact ⟨e', by simp only [ftrace, hx, he']; rfl⟩

/-- C5: building the table folds `BTreeMap::insert` over the parsed lines, so
when the same address appears on several input lines the later insert
overwrites the earlier one: in the built table, lookup at any address returns
exactly the symbol of the last input line that parsed to that address; and
the table's keys are strictly sorted, so each address holds one single
surviving entry for every later lookup to see. -/
theorem kallsyms_last_write_wins (lines : List String) (m : Syms)
    (h : kallsyms lines = .ok m) :
    SortedKeys m ∧ ∀ a : Nat, mapLookup m a = lastParsedAt lines a := by
  constructor
  · exact kallsymsAux_sorted lines [] m List.Pairwise.nil h
  · intro a
    rw [kallsymsAux_lookup lines [] m h a]
    cases hl : lastParsedAt lines a with
    | some w => rfl
    | none => rfl

/-- Witness for C5: two lines share address 0x64 = 100; the built table holds
the second line's symbol, matching the last parse at 100. -/
theorem kallsyms_last_write_wins_witness :
    mapLookup [(100, { name := "second", module := none })] 100 =
      lastParsedAt ["64 T first", "64 T second"] 100 ∧
    mapLookup [(100, { name := "second", module := none })] 100 =
      some { name := "second", module := none } :=
  ⟨(kallsyms_last_write_wins ["64 T first", "64 T second"]
      [(100, { name := "second", module := none })] rfl).2 100,
   by decide⟩

/-- C6: a line the kallsyms regex does not match anywhere makes the builder
fail with the panic message carrying the offending line, the whole build
returns an error, and the program produces no output at all; in particular
`"zz not-hex name"` is rejected this way. -/
theorem kallsyms_malformed_fatal :
    kallsymsCaptures ("zz not-hex name".data) = none ∧
    kallsymsLine "zz not-hex name" =
      .error "Symbol line not matched: zz not-hex name" ∧
    (∀ lines l, l ∈ lines → kallsymsCaptures l.data = none →
      ∃ e, kallsyms lines = .error e) ∧
    (∀ symLines traceLines l, l ∈ symLines → kallsymsCaptures l.data = none →
      ∃ e, mainOutput symLines traceLines = .error e) := by
  have hline : ∀ l : String, kallsymsCaptures l.data = none →
      kallsymsLine l = .error ("Symbol line not matched: " ++ l) := by
    intro l hl
    rw [kallsymsLine, hl]
  refine ⟨rfl, rfl, ?_, ?_⟩
  · intro lines l hmem hnone
    exact kallsymsAux_error lines l hmem ⟨_, hline l hnone⟩ []
  · intro symLines traceLines l hmem hnone
    obtain ⟨e, he⟩ := kallsymsAux_error symLines l hmem ⟨_, hline l hnone⟩ []
    rw [mainOutput]
    cases hf : ftrace traceLines with
    | error e' => exact ⟨e', rfl⟩
    | ok calls =>
      rw [show kallsyms symLines = .error e from he]
      exact ⟨e, rfl⟩

/-- Witness for C6: the malformed listing aborts both the build and the whole
run. -/
theorem kallsyms_malformed_fatal_witness :
    (∃ e, kallsyms ["zz not-hex name"] = .error e) ∧
    (∃ e, mainOutput ["zz not-hex name"] ["1 aa bb "] = .error e) :=
  ⟨kallsyms_malformed_fatal.2.2.1 ["zz not-hex name"] "zz not-hex name"
      (by decide) rfl,
   kallsyms_malformed_fatal.2.2.2 ["zz not-hex name"] ["1 aa bb "]
      "zz not-hex name" (by decide) rfl⟩

/-- C1 counterexample: the search loop prints `to.sym` (main.rs:143), the
bare symbol, not the `SymOffset`; on the spec's own example table
`{100 ↦ alpha, 200 ↦ beta}` and record `(cpu=1, to=150, from=250)` the
program emits `1 alpha <- beta+0x32`, not `1 alpha+0x32 <- beta+0x32`. -/
theorem output_line_format_cex :
    mainOutput ["64 T alpha", "c8 T beta"] ["1 96 fa "] =
      .ok ["1 alpha <- beta+0x32"] ∧
    "1 alpha <- beta+0x32" ≠ "1 alpha+0x32 <- beta+0x32" :=
  ⟨rfl, by decide⟩

/-- C1 (amended): for every record both of whose endpoints resolve, the loop
emits exactly one line `<cpu> <to-symbol> <- <from-symbol>[+0x<offset>]`: the
`from` endpoint is rendered as a `SymOffset` (suffix exactly when its offset
is positive), while the `to` endpoint is rendered as its bare symbol with no
offset suffix ever; on the example table the emitted line is
`1 alpha <- beta+0x32`. -/
theorem output_line_format :
    (∀ (syms : Syms) (c : FnCall) (t fr : SymOffset),
      findSym c.srcFrom syms = some fr → findSym c.dstTo syms = some t →
      processCall syms c =
        .ok (Nat.repr c.cpu ++ " " ++ t.sym.fmtStr ++ " <- " ++ fr.fmtStr)) ∧
    mainOutput ["64 T alpha", "c8 T beta"] ["1 96 fa "] =
      .ok ["1 alpha <- beta+0x32"] := by
  constructor
  · intro syms c t fr hfr ht
    simp only [processCall, hfr, ht]
  · rfl

/-- Witness for C1's amended statement on the example table and record. -/
theorem output_line_format_witness :
    processCall demoSyms { cpu := 1, srcFrom := 250, dstTo := 150 } =
      .ok (Nat.repr 1 ++ " " ++
        Symbol.fmtStr (SymOffset.sym { addr := 100, offset := 50, sym := alphaSym })
          ++ " <- " ++
        SymOffset.fmtStr { addr := 200, offset := 50, sym := betaSym }) :=
  output_line_format.1 demoSyms { cpu := 1, srcFrom := 250, dstTo := 150 }
    { addr := 100, offset := 50, sym := alphaSym }
    { addr := 200, offset := 50, sym := betaSym } (by decide) (by decide)

/-- C7: `SymOffset`'s rendering omits the `+0x` suffix exactly at offset 0
and otherwise appends the offset in lowercase hexadecimal without leading
zeros; a symbol with a module renders as `name[module]`, one without as its
bare name. -/
theorem display_format_rules :
    (∀ r : SymOffset, r.offset = 0 → r.fmtStr = r.sym.fmtStr) ∧
    (∀ r : SymOffset, 0 < r.offset →
      r.fmtStr = r.sym.fmtStr ++ "+0x" ++ hexStr r.offset) ∧
    (∀ n : Nat, 0 < n → (hexStr n).data.head? ≠ some '0' ∧
      ∀ c ∈ (hexStr n).data, c ∈ lowerHexChars) ∧
    (∀ name m, Symbol.fmtStr { name := name, module := some m } =
      name ++ "[" ++ m ++ "]") ∧
    (∀ name, Symbol.fmtStr { name := name, module := none } = name) := by
  refine ⟨?_, ?_, ?_, ?_, ?_⟩
  · intro r h
    rw [SymOffset.fmtStr, if_neg (by omega)]
  · intro r h
    rw [SymOffset.fmtStr, if_pos (by omega)]
  · intro n h
    exact ⟨(hexStr_spec h).2.1, (hexStr_spec h).2.2⟩
  · intro name m
    rfl
  · intro name
    rfl

/-- Witness for C7 at offsets 0 and 50 (= 0x32). -/
theorem display_format_rules_witness :
    SymOffset.fmtStr { addr := 100, offset := 0, sym := alphaSym } =
      alphaSym.fmtStr ∧
    SymOffset.fmtStr { addr := 200, offset := 50, sym := betaSym } =
      betaSym.fmtStr ++ "+0x" ++ hexStr 50 ∧
    (hexStr 50).data.head? ≠ some '0' ∧
    Symbol.fmtStr { name := "f", module := some "m" } = "f" ++ "[" ++ "m" ++ "]" ∧
    Symbol.fmtStr { name := "f", module := none } = "f" :=
  ⟨display_format_rules.1 _ rfl,
   display_format_rules.2.1 _ (by decide),
   (display_format_rules.2.2.1 50 (by decide)).1,
   display_format_rules.2.2.2.1 "f" "m",
   display_format_rules.2.2.2.2 "f"⟩

/-! ## Character-class and matcher helper lemmas -/

theorem isHexChar_not_ws {c : Char} (h : isHexChar c = true) : isWsChar c = false := by
  rw [isHexChar] at h
  rw [isWsChar]
  simp only [Bool.or_eq_true, Bool.and_eq_true, decide_eq_true_eq] at h
  simp only [Bool.or_eq_false_iff, beq_eq_false_iff_ne, ne_eq]
  omega

theorem isDigitChar_not_ws {c : Char} (h : isDigitChar c = true) : isWsChar c = false := by
  rw [isDigitChar] at h
  rw [isWsChar]
  simp only [Bool.and_eq_true, decide_eq_true_eq] at h
  simp only [Bool.or_eq_false_iff, beq_eq_false_iff_ne, ne_eq]
  omega

theorem takeWhile_all {α : Type} {p : α → Bool} {l : List α}
    (h : ∀ c ∈ l, p c = true) : l.takeWhile p = l :=
  List.takeWhile_eq_self_iff.mpr h

theorem dropWhile_all {α : Type} {p : α → Bool} {l : List α}
    (h : ∀ c ∈ l, p c = true) : l.dropWhile p = [] :=
  List.dropWhile_eq_nil_iff.mpr h

theorem takeWhile_head_false {α : Type} {p : α → Bool} {c : α} (t : List α)
    (h : p c = false) : List.takeWhile p (c :: t) = [] := by
  rw [List.takeWhile_cons, if_neg (by simp [h])]

theorem dropWhile_head_false {α : Type} {p : α → Bool} {c : α} (t : List α)
    (h : p c = false) : List.dropWhile p (c :: t) = c :: t := by
  rw [List.dropWhile_cons, if_neg (by simp [h])]

theorem takeWhile_ws_sp {l : List Char} (h : List.takeWhile isWsChar l = []) :
    List.takeWhile isWsChar (' ' :: l) = [' '] := by
  rw [List.takeWhile_cons, if_pos (by decide), h]

theorem dropWhile_ws_sp {l : List Char} (h : List.dropWhile isWsChar l = l) :
    List.dropWhile isWsChar (' ' :: l) = l := by
  rw [List.dropWhile_cons, if_pos (by decide), h]

theorem splitAtLastClose_concat {l : List Char} (h : (']' : Char) ∉ l) :
    splitAtLastClose (l ++ [']']) = some l := by
  induction l with
  | nil => rfl
  | cons c t ih =>
    have hc : (']' : Char) ∉ t := fun hmem => h (List.mem_cons_of_mem c hmem)
    rw [List.cons_append, splitAtLastClose, ih hc]

theorem kallsymsCaptures_of_matchAt {cs : List Char} {caps : KCaps}
    (hne : cs ≠ []) (h : kallsymsMatchAt cs = some caps) :
    kallsymsCaptures cs = some caps := by
  cases cs with
  | nil => exact absurd rfl hne
  | cons c t => rw [kallsymsCaptures, h]

theorem ftraceCaptures_of_matchAt {cs : List Char} {caps : FCaps}
    (hne : cs ≠ []) (h : ftraceMatchAt cs = some caps) :
    ftraceCaptures cs = some caps := by
  cases cs with
  | nil => exact absurd rfl hne
  | cons c t => rw [ftraceCaptures, h]

theorem isEmpty_false_of_ne_nil {α : Type} {l : List α} (h : l ≠ []) :
    l.isEmpty = false := by
  cases l with
  | nil => exact absurd rfl h
  | cons a t => rfl

/-- A line of the shape `<addr> <ty> <name><rest>` (single spaces, `rest`
empty or starting with whitespace) matches the kallsyms pattern at position 0
with exactly those captures; the optional module group is whatever
`modCapture` makes of `rest`. -/
theorem kallsymsMatchAt_grammar {addrD nameD rest : List Char} {ty : Char}
    (hA : addrD ≠ []) (hAhex : ∀ c ∈ addrD, isHexChar c = true)
    (hT : isAlphaChar ty = true)
    (hN : nameD ≠ []) (hNws : ∀ c ∈ nameD, isWsChar c = false)
    (hrest : rest = [] ∨ ∃ c rest', rest = c :: rest' ∧ isWsChar c = true) :
    kallsymsMatchAt (addrD ++ ' ' :: ty :: ' ' :: (nameD ++ rest)) =
      some { addr := addrD, ty := ty, name := nameD, md := modCapture rest } := by
  have htw : (addrD ++ ' ' :: ty :: ' ' :: (nameD ++ rest)).takeWhile isHexChar =
      addrD := takeWhile_append_cons isHexChar hAhex (by decide) _
  have hdw : (addrD ++ ' ' :: ty :: ' ' :: (nameD ++ rest)).dropWhile isHexChar =
      ' ' :: ty :: ' ' :: (nameD ++ rest) :=
    dropWhile_append_cons isHexChar hAhex (by decide) _
  have hnall : ∀ c ∈ nameD, (!isWsChar c) = true := fun c hc => by
    rw [hNws c hc]
    rfl
  have hntw : (nameD ++ rest).takeWhile (fun c => !isWsChar c) = nameD := by
    rcases hrest with hnil | ⟨c, rest', hrw, hcw⟩
    · rw [hnil, List.append_nil]
      exact takeWhile_all hnall
    · rw [hrw]
      exact takeWhile_append_cons _ hnall (by rw [hcw]; rfl) _
  have hndw : (nameD ++ rest).dropWhile (fun c => !isWsChar c) = rest := by
    rcases hrest with hnil | ⟨c, rest', hrw, hcw⟩
    · rw [hnil, List.append_nil]
      exact dropWhile_all hnall
    · rw [hrw]
      exact dropWhile_append_cons _ hnall (by rw [hcw]; rfl) _
  simp [kallsymsMatchAt, htw, hdw, hntw, hndw, hT,
    isEmpty_false_of_ne_nil hA, isEmpty_false_of_ne_nil hN,
    show isWsChar ' ' = true from rfl]

/-- The optional module group takes ` [<module>]` when the module text is
nonempty, whitespace-free and `]`-free. -/
theorem modCapture_bracket {modD : List Char} (hM : modD ≠ [])
    (hMws : ∀ c ∈ modD, isWsChar c = false) (hMnb : (']' : Char) ∉ modD) :
    modCapture (' ' :: '[' :: (modD ++ [']'])) = some modD := by
  have hall : ∀ c ∈ modD ++ [']'], (!isWsChar c) = true := by
    intro c hc
    rcases List.mem_append.1 hc with h | h
    · rw [hMws c h]
      rfl
    · simp at h
      rw [h]
      rfl
  have h1 : List.takeWhile isWsChar ('[' :: (modD ++ [']'])) = [] :=
    takeWhile_head_false _ (by decide)
  have h2 : List.dropWhile isWsChar ('[' :: (modD ++ [']'])) = '[' :: (modD ++ [']']) :=
    dropWhile_head_false _ (by decide)
  simp [modCapture, takeWhile_ws_sp h1, dropWhile_ws_sp h2, takeWhile_all hall,
    splitAtLastClose_concat hMnb, isEmpty_false_of_ne_nil hM]

/-- C8 counterexample: `10000000000000000 T overflow` is a grammar-shaped
line (hex address, type letter, name), but its 17-digit address denotes 2^64,
so the builder aborts with a parse error instead of inserting an entry. -/
theorem kallsyms_grammar_insert_cex :
    "10000000000000000".data.all isHexChar = true ∧
    isAlphaChar 'T' = true ∧
    "10000000000000000 T overflow" =
      String.mk ("10000000000000000".data ++ ' ' :: 'T' :: ' ' :: "overflow".data) ∧
    kallsymsLine "10000000000000000 T overflow" = .error "Failed to parse address" ∧
    kallsyms ["10000000000000000 T overflow"] = .error "Failed to parse address" :=
  ⟨rfl, rfl, rfl, rfl, rfl⟩

/-- C8 (amended): every line `<hex-address> <single-letter-type> <name>`
(single-space separated, optionally followed by ` [<module>]`) whose address
value fits in 64 bits is parsed base-16 and inserted as
`(address, Symbol { name, module })`; the example line
`ffffffff81012340 T do_fork` yields `(0xffffffff81012340, do_fork)` and the
single-line listing builds exactly that table. -/
theorem kallsyms_grammar_insert :
    (∀ (addrD : List Char) (ty : Char) (nameD : List Char),
      addrD ≠ [] → (∀ c ∈ addrD, isHexChar c = true) →
      isAlphaChar ty = true →
      nameD ≠ [] → (∀ c ∈ nameD, isWsChar c = false) →
      digitsVal 16 addrD < 2 ^ 64 →
      kallsymsLine (String.mk (addrD ++ ' ' :: ty :: ' ' :: nameD)) =
        .ok (digitsVal 16 addrD, { name := String.mk nameD, module := none }) ∧
      kallsyms [String.mk (addrD ++ ' ' :: ty :: ' ' :: nameD)] =
        .ok [(digitsVal 16 addrD, { name := String.mk nameD, module := none })]) ∧
    (∀ (addrD : List Char) (ty : Char) (nameD modD : List Char),
      addrD ≠ [] → (∀ c ∈ addrD, isHexChar c = true) →
      isAlphaChar ty = true →
      nameD ≠ [] → (∀ c ∈ nameD, isWsChar c = false) →
      modD ≠ [] → (∀ c ∈ modD, isWsChar c = false) → (']' : Char) ∉ modD →
      digitsVal 16 addrD < 2 ^ 64 →
      kallsymsLine (String.mk (addrD ++ ' ' :: ty :: ' ' ::
          (nameD ++ (' ' :: '[' :: (modD ++ [']']))))) =
        .ok (digitsVal 16 addrD,
          { name := String.mk nameD, module := some (String.mk modD) })) ∧
    kallsymsLine "ffffffff81012340 T do_fork" =
      .ok (0xffffffff81012340, { name := "do_fork", module := none }) ∧
    kallsyms ["ffffffff81012340 T do_fork"] =
      .ok [(0xffffffff81012340, { name := "do_fork", module := none })] := by
  refine ⟨?_, ?_, rfl, rfl⟩
  · intro addrD ty nameD hA hAhex hT hN hNws hbound
    have hmatch := kallsymsMatchAt_grammar hA hAhex hT hN hNws (Or.inl rfl)
    rw [List.append_nil] at hmatch
    have hcaps : kallsymsCaptures
        (String.mk (addrD ++ ' ' :: ty :: ' ' :: nameD)).data =
        some { addr := addrD, ty := ty, name := nameD, md := modCapture [] } := by
      show kallsymsCaptures (addrD ++ ' ' :: ty :: ' ' :: nameD) = _
      exact kallsymsCaptures_of_matchAt
        (fun hnil => hA (List.append_eq_nil.1 hnil).1) hmatch
    have hline : kallsymsLine (String.mk (addrD ++ ' ' :: ty :: ' ' :: nameD)) =
        .ok (digitsVal 16 addrD, { name := String.mk nameD, module := none }) := by
      simp only [kallsymsLine, hcaps]
      rw [fromStrRadix, if_pos ⟨hA, hbound⟩]
      rfl
    exact ⟨hline, by simp [kallsyms, kallsymsAux, hline, btreeInsert]⟩
  · intro addrD ty nameD modD hA hAhex hT hN hNws hM hMws hMnb hbound
    have hmod := modCapture_bracket hM hMws hMnb
    have hmatch := kallsymsMatchAt_grammar hA hAhex hT hN hNws
      (Or.inr ⟨' ', '[' :: (modD ++ [']']), rfl, rfl⟩)
    have hcaps : kallsymsCaptures (String.mk (addrD ++ ' ' :: ty :: ' ' ::
        (nameD ++ (' ' :: '[' :: (modD ++ [']']))))).data =
        some { addr := addrD, ty := ty, name := nameD, md := some modD } := by
      show kallsymsCaptures (addrD ++ ' ' :: ty :: ' ' ::
        (nameD ++ (' ' :: '[' :: (modD ++ [']'])))) = _
      rw [kallsymsCaptures_of_matchAt
        (fun hnil => hA (List.append_eq_nil.1 hnil).1) hmatch, hmod]
    simp only [kallsymsLine, hcaps]
    rw [fromStrRadix, if_pos ⟨hA, hbound⟩]
    rfl

/-- Witness for C8's amended statement: `64 T alpha` and
`64 T mod_fn [mymod]` parse to the expected entries. -/
theorem kallsyms_grammar_insert_witness :
    kallsymsLine (String.mk ("64".data ++ ' ' :: 'T' :: ' ' :: "alpha".data)) =
      .ok (digitsVal 16 "64".data,
        { name := String.mk "alpha".data, module := none }) ∧
    kallsymsLine (String.mk ("64".data ++ ' ' :: 'T' :: ' ' ::
        ("mod_fn".data ++ (' ' :: '[' :: ("mymod".data ++ [']']))))) =
      .ok (digitsVal 16 "64".data,
        { name := String.mk "mod_fn".data, module := some (String.mk "mymod".data) }) :=
  ⟨(kallsyms_grammar_insert.1 "64".data 'T' "alpha".data (by decide) (by decide)
      (by decide) (by decide) (by decide) (by decide)).1,
   kallsyms_grammar_insert.2.1 "64".data 'T' "mod_fn".data "mymod".data
      (by decide) (by decide) (by decide) (by decide) (by decide) (by decide)
      (by decide) (by decide) (by decide)⟩

/-- A line `<cpu> <to> <from> ` (single spaces, trailing whitespace) matches
the ftrace pattern at position 0 with exactly those captures. -/
theorem ftraceMatchAt_grammar {cpuD toD fromD : List Char}
    (hC : cpuD ≠ []) (hCd : ∀ c ∈ cpuD, isDigitChar c = true)
    (hTo : toD ≠ []) (hToh : ∀ c ∈ toD, isHexChar c = true)
    (hF : fromD ≠ []) (hFh : ∀ c ∈ fromD, isHexChar c = true) :
    ftraceMatchAt (cpuD ++ ' ' :: (toD ++ ' ' :: (fromD ++ [' ']))) =
      some { cpu := cpuD, toA := toD, fromA := fromD } := by
  have h1 : (cpuD ++ ' ' :: (toD ++ ' ' :: (fromD ++ [' ']))).takeWhile
      isDigitChar = cpuD := takeWhile_append_cons isDigitChar hCd (by decide) _
  have h2 : (cpuD ++ ' ' :: (toD ++ ' ' :: (fromD ++ [' ']))).dropWhile
      isDigitChar = ' ' :: (toD ++ ' ' :: (fromD ++ [' '])) :=
    dropWhile_append_cons isDigitChar hCd (by decide) _
  have hws1 : (toD ++ ' ' :: (fromD ++ [' '])).takeWhile isWsChar = [] := by
    cases toD with
    | nil => exact absurd rfl hTo
    | cons c t' =>
      rw [List.cons_append]
      exact takeWhile_head_false _ (isHexChar_not_ws (hToh c (by simp)))
  have hws1' : (toD ++ ' ' :: (fromD ++ [' '])).dropWhile isWsChar =
      toD ++ ' ' :: (fromD ++ [' ']) := by
    cases toD with
    | nil => exact absurd rfl hTo
    | cons c t' =>
      rw [List.cons_append]
      exact dropWhile_head_false _ (isHexChar_not_ws (hToh c (by simp)))
  have h3 : (' ' :: (toD ++ ' ' :: (fromD ++ [' ']))).takeWhile isWsChar =
      [' '] := takeWhile_ws_sp hws1
  have h4 : (' ' :: (toD ++ ' ' :: (fromD ++ [' ']))).dropWhile isWsChar =
      toD ++ ' ' :: (fromD ++ [' ']) := dropWhile_ws_sp hws1'
  have h5 : (toD ++ ' ' :: (fromD ++ [' '])).takeWhile isHexChar = toD :=
    takeWhile_append_cons isHexChar hToh (by decide) _
  have h6 : (toD ++ ' ' :: (fromD ++ [' '])).dropWhile isHexChar =
      ' ' :: (fromD ++ [' ']) := dropWhile_append_cons isHexChar hToh (by decide) _
  have hws2 : (fromD ++ [' ']).takeWhile isWsChar = [] := by
    cases fromD with
    | nil => exact absurd rfl hF
    | cons c t' =>
      rw [List.cons_append]
      exact takeWhile_head_false _ (isHexChar_not_ws (hFh c (by simp)))
  have hws2' : (fromD ++ [' ']).dropWhile isWsChar = fromD ++ [' '] := by
    cases fromD with
    | nil => exact absurd rfl hF
    | cons c t' =>
      rw [List.cons_append]
      exact dropWhile_head_false _ (isHexChar_not_ws (hFh c (by simp)))
  have h7 : (' ' :: (fromD ++ [' '])).takeWhile isWsChar = [' '] :=
    takeWhile_ws_sp hws2
  have h8 : (' ' :: (fromD ++ [' '])).dropWhile isWsChar = fromD ++ [' '] :=
    dropWhile_ws_sp hws2'
  have h9 : (fromD ++ [' ']).takeWhile isHexChar = fromD :=
    takeWhile_append_cons isHexChar hFh (by decide) []
  have h10 : (fromD ++ [' ']).dropWhile isHexChar = [' '] :=
    dropWhile_append_cons isHexChar hFh (by decide) []
  simp [ftraceMatchAt, h1, h2, h3, h4, h5, h6, h7, h8, h9, h10,
    isEmpty_false_of_ne_nil hC, isEmpty_false_of_ne_nil hTo,
    isEmpty_false_of_ne_nil hF, show isWsChar ' ' = true from rfl]

/-- The per-line parse of `ftrace` on a grammar-shaped line with trailing
whitespace and in-range numeric fields. -/
theorem ftraceLine_grammar {cpuD toD fromD : List Char}
    (hC : cpuD ≠ []) (hCd : ∀ c ∈ cpuD, isDigitChar c = true)
    (hTo : toD ≠ []) (hToh : ∀ c ∈ toD, isHexChar c = true)
    (hF : fromD ≠ []) (hFh : ∀ c ∈ fromD, isHexChar c = true)
    (hCb : digitsVal 10 cpuD < 2 ^ 32) (hTob : digitsVal 16 toD < 2 ^ 64)
    (hFb : digitsVal 16 fromD < 2 ^ 64) :
    ftraceLine (String.mk (cpuD ++ ' ' :: (toD ++ ' ' :: (fromD ++ [' '])))) =
      .ok { cpu := digitsVal 10 cpuD, srcFrom := digitsVal 16 fromD,
            dstTo := digitsVal 16 toD } := by
  have hmatch := ftraceMatchAt_grammar hC hCd hTo hToh hF hFh
  have hcaps : ftraceCaptures
      (String.mk (cpuD ++ ' ' :: (toD ++ ' ' :: (fromD ++ [' '])))).data =
      some { cpu := cpuD, toA := toD, fromA := fromD } := by
    show ftraceCaptures (cpuD ++ ' ' :: (toD ++ ' ' :: (fromD ++ [' ']))) = _
    exact ftraceCaptures_of_matchAt
      (fun hnil => hC (List.append_eq_nil.1 hnil).1) hmatch
  have hcpu : fromStrRadix 10 (2 ^ 32) cpuD = some (digitsVal 10 cpuD) := by
    rw [fromStrRadix, if_pos ⟨hC, hCb⟩]
  have hfrom : fromStrRadix 16 (2 ^ 64) fromD = some (digitsVal 16 fromD) := by
    rw [fromStrRadix, if_pos ⟨hF, hFb⟩]
  have hto : fromStrRadix 16 (2 ^ 64) toD = some (digitsVal 16 toD) := by
    rw [fromStrRadix, if_pos ⟨hTo, hTob⟩]
  simp only [ftraceLine, hcaps, hcpu, hfrom, hto]

/-- C9 counterexample: the spec's example trace line, exactly as given, has
no whitespace after the `from` field, so the unanchored pattern (which ends
in `\s+`) matches nowhere in it and the parser panics instead of producing a
record. -/
theorem trace_records_cex :
    ftraceCaptures ("2 ffffffff81012340 ffffffff81099000".data) = none ∧
    ftraceLine "2 ffffffff81012340 ffffffff81099000" =
      .error "Failed to match ftrace line" ∧
    ftrace ["2 ffffffff81012340 ffffffff81099000"] =
      .error "Failed to match ftrace line" :=
  ⟨rfl, rfl, rfl⟩

/-- C9 (amended): a trace line `<cpu> <to> <from>` is parsed only when
whitespace follows the `from` field; such a line (with in-range fields)
produces exactly one CallRecord with those three fields, the record sequence
mirrors the line sequence index by index with no filtering or reordering,
and the example line with a trailing space yields
`(cpu=2, to=0xffffffff81012340, from=0xffffffff81099000)`. -/
theorem trace_records :
    (∀ cpuD toD fromD : List Char,
      cpuD ≠ [] → (∀ c ∈ cpuD, isDigitChar c = true) →
      toD ≠ [] → (∀ c ∈ toD, isHexChar c = true) →
      fromD ≠ [] → (∀ c ∈ fromD, isHexChar c = true) →
      digitsVal 10 cpuD < 2 ^ 32 → digitsVal 16 toD < 2 ^ 64 →
      digitsVal 16 fromD < 2 ^ 64 →
      ftraceLine (String.mk (cpuD ++ ' ' :: (toD ++ ' ' :: (fromD ++ [' '])))) =
        .ok { cpu := digitsVal 10 cpuD, srcFrom := digitsVal 16 fromD,
              dstTo := digitsVal 16 toD }) ∧
    (∀ lines rs, ftrace lines = .ok rs → rs.length = lines.length ∧
      ∀ (i : Nat) (hl : i < lines.length) (hr : i < rs.length),
        ftraceLine (lines.get ⟨i, hl⟩) = .ok (rs.get ⟨i, hr⟩)) ∧
    ftraceLine "2 ffffffff81012340 ffffffff81099000 " =
      .ok { cpu := 2, srcFrom := 0xffffffff81099000,
            dstTo := 0xffffffff81012340 } := by
  refine ⟨?_, ?_, rfl⟩
  · intro cpuD toD fromD hC hCd hTo hToh hF hFh hCb hTob hFb
    exact ftraceLine_grammar hC hCd hTo hToh hF hFh hCb hTob hFb
  · intro lines
    induction lines with
    | nil =>
      intro rs h
      simp only [ftrace] at h
      cases h
      exact ⟨rfl, fun i hl hr => absurd hl (by simp)⟩
    | cons l t ih =>
      intro rs h
      cases hl : ftraceLine l with
      | error e => simp [ftrace, hl] at h
      | ok c =>
        simp only [ftrace, hl] at h
        cases hft : ftrace t with
        | error e =>
          rw [hft] at h
          exact absurd h (by simp [Except.map])
        | ok cs =>
          rw [hft] at h
          have h' : Except.ok (c :: cs) = Except.ok rs := h
          cases h'
          obtain ⟨hlen, hidx⟩ := ih cs hft
          refine ⟨by simp [hlen], ?_⟩
          intro i hli hri
          cases i with
          | zero => simpa using hl
          | succ j =>
            simpa using hidx j (by simpa using hli) (by simpa using hri)

/-- Witness for C9's amended statement: `1 c8 64 ` parses to cpu 1,
to 0xc8 = 200, from 0x64 = 100. -/
theorem trace_records_witness :
    ftraceLine (String.mk ("1".data ++ ' ' :: ("c8".data ++ ' ' ::
        ("64".data ++ [' '])))) =
      .ok { cpu := digitsVal 10 "1".data, srcFrom := digitsVal 16 "64".data,
            dstTo := digitsVal 16 "c8".data } ∧
    ftrace ["2 ffffffff81012340 ffffffff81099000 "] =
      .ok [{ cpu := 2, srcFrom := 0xffffffff81099000,
             dstTo := 0xffffffff81012340 }] ∧
    ftraceLine (["2 ffffffff81012340 ffffffff81099000 "].get ⟨0, by decide⟩) =
      .ok ([{ cpu := 2, srcFrom := 0xffffffff81099000,
              dstTo := 0xffffffff81012340 }].get ⟨0, by decide⟩) :=
  ⟨trace_records.1 "1".data "c8".data "64".data (by decide) (by decide)
      (by decide) (by decide) (by decide) (by decide) (by decide) (by decide)
      (by decide),
   rfl,
   (trace_records.2.1 ["2 ffffffff81012340 ffffffff81099000 "]
      [{ cpu := 2, srcFrom := 0xffffffff81099000, dstTo := 0xffffffff81012340 }]
      rfl).2 0 (by decide) (by decide)⟩

/-- C10: a captured numeric field that denotes a value out of its integer's
range — cpu ≥ 2^32, or a hex address ≥ 2^64 in either file — makes the
corresponding `from_str_radix` fail, the line parse panic with the matching
message instead of wrapping or producing a record, and the whole pass
abort. -/
theorem numeric_overflow_fatal :
    (∀ (line : String) caps, kallsymsCaptures line.data = some caps →
      2 ^ 64 ≤ digitsVal 16 caps.addr →
      kallsymsLine line = .error "Failed to parse address") ∧
    (∀ (line : String) caps, ftraceCaptures line.data = some caps →
      2 ^ 32 ≤ digitsVal 10 caps.cpu →
      ftraceLine line = .error "Failed to parse CPU") ∧
    (∀ (line : String) caps cv, ftraceCaptures line.data = some caps →
      fromStrRadix 10 (2 ^ 32) caps.cpu = some cv →
      2 ^ 64 ≤ digitsVal 16 caps.fromA →
      ftraceLine line = .error "Failed to parse address") ∧
    (∀ (line : String) caps cv fv, ftraceCaptures line.data = some caps →
      fromStrRadix 10 (2 ^ 32) caps.cpu = some cv →
      fromStrRadix 16 (2 ^ 64) caps.fromA = some fv →
      2 ^ 64 ≤ digitsVal 16 caps.toA →
      ftraceLine line = .error "Failed to parse address") ∧
    (∀ lines l, l ∈ lines → (∃ e, kallsymsLine l = .error e) →
      ∃ e, kallsyms lines = .error e) ∧
    (∀ lines l, l ∈ lines → (∃ e, ftraceLine l = .error e) →
      ∃ e, ftrace lines = .error e) := by
  refine ⟨?_, ?_, ?_, ?_, ?_, ?_⟩
  · intro line caps h hov
    simp only [kallsymsLine, h]
    rw [fromStrRadix, if_neg (by rintro ⟨-, hlt⟩; omega)]
  · intro line caps h hov
    simp only [ftraceLine, h]
    rw [fromStrRadix, if_neg (by rintro ⟨-, hlt⟩; omega)]
  · intro line caps cv h hcpu hov
    simp only [ftraceLine, h, hcpu]
    rw [fromStrRadix, if_neg (by rintro ⟨-, hlt⟩; omega)]
  · intro line caps cv fv h hcpu hfrom hov
    simp only [ftraceLine, h, hcpu, hfrom]
    rw [fromStrRadix, if_neg (by rintro ⟨-, hlt⟩; omega)]
  · intro lines l hm he
    exact kallsymsAux_error lines l hm he []
  · exact ftrace_error

/-- Witness for C10: a 17-digit hex address (= 2^64) and a cpu of 2^32 each
abort their parse with the expected message, and each aborts its whole
pass. -/
theorem numeric_overflow_fatal_witness :
    kallsymsLine "10000000000000000 T name" = .error "Failed to parse address" ∧
    ftraceLine "4294967296 aa bb " = .error "Failed to parse CPU" ∧
    ftraceLine "7 aa 10000000000000000 " = .error "Failed to parse address" ∧
    ftraceLine "7 10000000000000000 aa " = .error "Failed to parse address" ∧
    (∃ e, kallsyms ["10000000000000000 T name"] = .error e) ∧
    (∃ e, ftrace ["4294967296 aa bb "] = .error e) :=
  ⟨numeric_overflow_fatal.1 "10000000000000000 T name"
      { addr := "10000000000000000".data, ty := 'T', name := "name".data,
        md := none } rfl (by decide),
   numeric_overflow_fatal.2.1 "4294967296 aa bb "
      { cpu := "4294967296".data, toA := "aa".data, fromA := "bb".data }
      rfl (by decide),
   numeric_overflow_fatal.2.2.1 "7 aa 10000000000000000 "
      { cpu := "7".data, toA := "aa".data, fromA := "10000000000000000".data }
      7 rfl rfl (by decide),
   numeric_overflow_fatal.2.2.2.1 "7 10000000000000000 aa "
      { cpu := "7".data, toA := "10000000000000000".data, fromA := "aa".data }
      7 170 rfl rfl rfl (by decide),
   numeric_overflow_fatal.2.2.2.2.1 ["10000000000000000 T name"]
      "10000000000000000 T name" (by decide)
      ⟨"Failed to parse address", rfl⟩,
   numeric_overflow_fatal.2.2.2.2.2 ["4294967296 aa bb "] "4294967296 aa bb "
      (by decide) ⟨"Failed to parse CPU", rfl⟩⟩

end Ramoops
